import Mathlib

/-!
Verification of the probabilistic-automaton library (`probabilistic_automata/pa.py`).

Python dictionaries are rendered as insertion-ordered association lists
`List (K × Q)`; floats as rationals; the external deterministic-automaton
engine (the `dfa` package) as a structure carrying exactly the contract the
library consumes (start state, labelling function, alphabet, outputs,
transition function).
-/

set_option autoImplicit false

namespace ProbAuto

variable {S A E O : Type}

/-- Python class `Distribution` from `pa.py`: a frozen object wrapping a
mapping from environment actions to weights.  The dict is rendered as an
insertion-ordered association list. -/
structure Distribution (E : Type) where
  entries : List (E × ℚ)

/-- Dictionary read with default 0: renders both Python dict
`.get(k, 0)` and a read from a `defaultdict` whose default is `0`. -/
def lookupD {K : Type} [DecidableEq K] : List (K × ℚ) → K → ℚ
  | [], _ => 0
  | (k, w) :: rest, a => if k = a then w else lookupD rest a

/-- Method `Distribution.__call__`: `self._dist.get(action, 0)`. -/
def Distribution.call [DecidableEq E] (d : Distribution E) (a : E) : ℚ :=
  lookupD d.entries a

/-- Modelled from the spec: the external weighted-choice primitive
`random.choices(actions, weights)[0]`, which the spec places out of scope as
an external uniform-random source.  Given a draw `r`, it walks the entries'
cumulative weights and returns the matching action, clamping to the last
entry; on no entries there is nothing to unpack and the call fails (`none`). -/
def pickByWeight : List (E × ℚ) → ℚ → Option E
  | [], _ => none
  | [(a, _)], _ => some a
  | (a, w) :: p :: rest, r => if r < w then some a else pickByWeight (p :: rest) (r - w)

/-- Method `Distribution.sample`: unpacks the entries (failing when there are
none) and delegates to the external weighted choice, here fed an explicit
draw `r` standing for the external randomness source. -/
def Distribution.sample (d : Distribution E) (r : ℚ) : Option E :=
  pickByWeight d.entries r

/-- Function `uniform(actions)` from `pa.py`: the constant environment
distribution giving every listed action weight `1/len(actions)`. -/
def uniform (actions : List E) : S → A → Distribution E :=
  fun _ _ => ⟨actions.map (fun a => (a, 1 / (actions.length : ℚ)))⟩

/-- The external deterministic automaton engine (class `DFA` of the `dfa`
package), carrying the contract the spec lists for it: a start state, a
labelling function, an input alphabet, an output alphabet and a transition
function.  `I` is the type of input symbols. -/
structure DFA (S I O : Type) where
  start : S
  label : S → O
  inputs : List I
  outputs : List O
  transition : S → I → S

/-- Class `PDFA` from `pa.py`: a DFA over the product alphabet
(system action × environment action) together with an environment
distribution function. -/
structure PDFA (S A E O : Type) where
  dfa : DFA S (A × E) O
  env_dist : S → A → Distribution E

/-- Method `PDFA._probs`: for each `(e, p)` in `env_dist(start, action).items()`
yield the pair `(dfa._transition(start, (action, e)), p)`. -/
def PDFA.probs (p : PDFA S A E O) (start : S) (action : A) : List (S × ℚ) :=
  (p.env_dist start action).entries.map
    (fun ew => (p.dfa.transition start (action, ew.1), ew.2))

/-- One `probs[end] += prob` step on `defaultdict(lambda: 0)` rendered on an
insertion-ordered association list: add to the first entry with this key,
otherwise append a fresh entry at the end. -/
def addWeight [DecidableEq S] : List (S × ℚ) → S → ℚ → List (S × ℚ)
  | [], k, w => [(k, w)]
  | (k', w') :: rest, k, w =>
    if k' = k then (k', w' + w) :: rest else (k', w') :: addWeight rest k w

/-- Method `PDFA.transition_probs`: accumulate the weights of `_probs` by
destination state into a `defaultdict(lambda: 0)`. -/
def PDFA.transition_probs [DecidableEq S] (p : PDFA S A E O) (state : S) (action : A) :
    List (S × ℚ) :=
  (p.probs state action).foldl (fun m q => addWeight m q.1 q.2) []

/-- Method `PDFA.support`: `set(self.transition_probs(state, action).keys())`. -/
def PDFA.support [DecidableEq S] (p : PDFA S A E O) (state : S) (action : A) : List S :=
  (p.transition_probs state action).map Prod.fst

/-- Method `PDFA.prob`: `sum(p for s, p in self._probs(start, action) if s == end)`. -/
def PDFA.prob [DecidableEq S] (p : PDFA S A E O) (start e : S) (action : A) : ℚ :=
  (((p.probs start action).filter (fun q => decide (q.1 = e))).map Prod.snd).sum

/-- Function `lift(dyn)` from `pa.py`: evolve `dyn` to the product alphabet
`dyn.inputs × (None)` with transition `(s, c) -> dyn._transition(s, c[0])`,
paired with the environment distribution `uniform((None))`.  The Python
`None` environment symbol is rendered as `Unit`. -/
def lift (dyn : DFA S A O) : PDFA S A Unit O :=
  { dfa := { start := dyn.start
             label := dyn.label
             inputs := dyn.inputs.map (fun a => (a, ()))
             outputs := dyn.outputs
             transition := fun s c => dyn.transition s c.1 }
    env_dist := uniform [()] }

/-- Function `randomize(dyn)` from `pa.py`: evolve `dyn` to the product
alphabet `(None) × dyn.inputs` with transition
`(s, c) -> dyn._transition(s, c[1])`, paired with `uniform(dyn.inputs)`.
The Python `None` system symbol is rendered as `Unit`. -/
def randomize (dyn : DFA S A O) : PDFA S Unit A O :=
  { dfa := { start := dyn.start
             label := dyn.label
             inputs := dyn.inputs.map (fun a => ((), a))
             outputs := dyn.outputs
             transition := fun s c => dyn.transition s c.2 }
    env_dist := uniform dyn.inputs }

/-- An alphabet symbol as the dynamically-typed automaton engine sees it
before validation: either a tuple of payloads or a non-tuple atom, with
payloads rendered as naturals. -/
inductive PySym where
  | tuple (elems : List Nat)
  | atom (n : Nat)
deriving DecidableEq

/-- One conjunct of the validator `PDFA._check_product_lang`:
`isinstance(i, tuple) and len(i) == 2` for one alphabet symbol. -/
def PySym.isPair2 : PySym → Bool
  | PySym.tuple l => decide (l.length = 2)
  | PySym.atom _ => false

/-- Validator `PDFA._check_product_lang` on the wrapped automaton's alphabet:
`all(isinstance(i, tuple) and len(i) == 2 for i in dfa.inputs)`. -/
def check_product_lang (inputs : List PySym) : Bool :=
  inputs.all PySym.isPair2

/-- Constructing a `PDFA` runs the attrs validator `_check_product_lang`; a
failing assert raises, rendered here as an error value. -/
def pdfa_validate (inputs : List PySym) : Except String Unit :=
  if check_product_lang inputs then Except.ok () else Except.error "AssertionError"

/-- Modelled from the spec: the external randomness source (Python's global
`random` module), which the spec places out of scope as an external
uniform-random source; rendered as a deterministic generator on a
natural-number state, positioned by `random.seed(seed)`.  One
linear-congruential step yields a rational draw and the next generator
state; the determinism theorem below does not depend on the particular
step function. -/
def rngNext (g : Nat) : ℚ × Nat :=
  let g2 := (g * 1103515245 + 12345) % 2147483648
  (((g2 % 1000 : Nat) : ℚ), g2)

/-- One `env_dist(state, sys_action).sample()` call inside the loop of
`PDFA.run`: draw from the generator and pick an environment action by
weight, failing when the distribution has no entries. -/
def sampleStep (d : Distribution E) (g : Nat) : Option (E × Nat) :=
  match d.sample (rngNext g).1 with
  | some e => some (e, (rngNext g).2)
  | none => none

/-- The loop of `PDFA.run`: positioned at a current state with a generator
state, each sent system action draws an environment action from
`env_dist(state, sys_action)`, steps the wrapped automaton on the pair
`(sys_action, env_action)`, and yields the next state.
`Run p (s, g) acts ss` says that driving a simulator positioned at `s`
with generator state `g` through the system actions `acts` yields exactly
the sequence of states `ss`. -/
inductive Run (p : PDFA S A E O) : S × Nat → List A → List S → Prop where
  | nil (c : S × Nat) : Run p c [] []
  | step (s : S) (g : Nat) (a : A) (e : E) (g2 : Nat) (acts : List A) (ss : List S)
      (hsample : sampleStep (p.env_dist s a) g = some (e, g2))
      (hrest : Run p (p.dfa.transition s (a, e), g2) acts ss) :
      Run p (s, g) (a :: acts) (p.dfa.transition s (a, e) :: ss)

/-- A concrete product-alphabet automaton used to instantiate theorems with
hypotheses. -/
def exDFA : DFA Nat (Nat × Nat) Bool :=
  { start := 0
    label := fun s => decide (s % 2 = 0)
    inputs := [(0, 0), (0, 1), (1, 0), (1, 1)]
    outputs := [true, false]
    transition := fun s c => (s + c.1 + c.2) % 3 }

/-- A concrete PDFA over `exDFA` with a two-point environment distribution
(weights need not sum to 1). -/
def exPDFA : PDFA Nat Nat Nat Bool :=
  { dfa := exDFA
    env_dist := fun _ _ => ⟨[(0, 1), (1, 1)]⟩ }

/-- A concrete plain (non-product) automaton used to instantiate the
theorems about `lift` and `randomize`. -/
def exDyn : DFA Nat Nat Bool :=
  { start := 0
    label := fun s => decide (s = 0)
    inputs := [0, 1, 2]
    outputs := [true, false]
    transition := fun s i => (s + i) % 2 }

/- ### Helper lemmas on the weight accumulator -/

lemma addWeight_sum [DecidableEq S] (m : List (S × ℚ)) (k : S) (w : ℚ) :
    ((addWeight m k w).map Prod.snd).sum = (m.map Prod.snd).sum + w := by
  induction m with
  | nil => simp [addWeight]
  | cons q rest ih =>
    obtain ⟨k', w'⟩ := q
    by_cases h : k' = k
    · simp [addWeight, h]
      ring
    · simp [addWeight, h, ih]
      ring

lemma foldl_addWeight_sum [DecidableEq S] (l m : List (S × ℚ)) :
    (((l.foldl (fun m q => addWeight m q.1 q.2) m).map Prod.snd).sum)
      = (m.map Prod.snd).sum + (l.map Prod.snd).sum := by
  induction l generalizing m with
  | nil => simp
  | cons q rest ih =>
    simp only [List.foldl_cons, ih, addWeight_sum, List.map_cons, List.sum_cons]
    ring

/-- C1: for every state and system action, the values of the mapping returned
by `transition_probs(state, action)` sum to the total weight of the
distribution `env_dist(state, action)`: accumulating weights by destination
state conserves the distribution's total mass. -/
theorem transition_probs_mass [DecidableEq S] (p : PDFA S A E O) (s : S) (a : A) :
    ((p.transition_probs s a).map Prod.snd).sum
      = ((p.env_dist s a).entries.map Prod.snd).sum := by
  unfold PDFA.transition_probs
  rw [foldl_addWeight_sum]
  simp only [PDFA.probs, List.map_map, List.map_nil, List.sum_nil, zero_add]
  rfl

/-- Total weight a list of (destination, weight) pairs places on one key. -/
def weightAt [DecidableEq S] (l : List (S × ℚ)) (x : S) : ℚ :=
  ((l.filter (fun q => decide (q.1 = x))).map Prod.snd).sum

lemma addWeight_lookupD [DecidableEq S] (m : List (S × ℚ)) (k : S) (w : ℚ) (x : S) :
    lookupD (addWeight m k w) x = lookupD m x + (if k = x then w else 0) := by
  induction m with
  | nil => simp [addWeight, lookupD]
  | cons q rest ih =>
    obtain ⟨k', w'⟩ := q
    by_cases h : k' = k
    · subst h
      by_cases hx : k' = x <;> simp [addWeight, lookupD, hx]
    · by_cases hx : k' = x
      · subst hx
        have hk : ¬ k = k' := fun hk => h hk.symm
        simp [addWeight, lookupD, h, hk]
      · simp [addWeight, lookupD, h, hx, ih]

lemma weightAt_cons [DecidableEq S] (q : S × ℚ) (l : List (S × ℚ)) (x : S) :
    weightAt (q :: l) x = (if q.1 = x then q.2 else 0) + weightAt l x := by
  by_cases h : q.1 = x <;> simp [weightAt, List.filter_cons, h]

lemma foldl_addWeight_lookupD [DecidableEq S] (l m : List (S × ℚ)) (x : S) :
    lookupD (l.foldl (fun m q => addWeight m q.1 q.2) m) x
      = lookupD m x + weightAt l x := by
  induction l generalizing m with
  | nil => simp [weightAt]
  | cons q rest ih =>
    simp only [List.foldl_cons, ih, addWeight_lookupD, weightAt_cons]
    ring

lemma mem_addWeight_keys [DecidableEq S] (m : List (S × ℚ)) (k : S) (w : ℚ) (x : S) :
    x ∈ (addWeight m k w).map Prod.fst ↔ x ∈ m.map Prod.fst ∨ x = k := by
  induction m with
  | nil => simp [addWeight, eq_comm]
  | cons q rest ih =>
    obtain ⟨k', w'⟩ := q
    by_cases h : k' = k
    · subst h
      constructor
      · rintro hx
        simp [addWeight] at hx
        rcases hx with hx | hx
        · exact Or.inl (by simp [hx])
        · exact Or.inl (by simp [hx])
      · rintro (hx | hx)
        · simp [addWeight] at hx ⊢
          tauto
        · simp [addWeight, hx]
    · simp only [addWeight, if_neg h, List.map_cons, List.mem_cons, ih]
      tauto

lemma mem_foldl_addWeight_keys [DecidableEq S] (l m : List (S × ℚ)) (x : S) :
    x ∈ ((l.foldl (fun m q => addWeight m q.1 q.2) m)).map Prod.fst
      ↔ x ∈ m.map Prod.fst ∨ x ∈ l.map Prod.fst := by
  induction l generalizing m with
  | nil => simp
  | cons q rest ih =>
    simp only [List.foldl_cons, ih, mem_addWeight_keys, List.map_cons, List.mem_cons]
    tauto

lemma transition_probs_lookupD [DecidableEq S] (p : PDFA S A E O) (s : S) (a : A) (x : S) :
    lookupD (p.transition_probs s a) x = weightAt (p.probs s a) x := by
  unfold PDFA.transition_probs
  rw [foldl_addWeight_lookupD]
  simp [lookupD]

/-- C3: for every start state, end state and action, `prob(start, end, action)`
is the sum of the weights of the environment actions that, applied at `start`
with the action, land on `end`, and it equals the value `transition_probs`
assigns to `end` (the dictionary read defaulting to 0 when `end` is not a
key): the filter-and-sum and accumulate-by-destination computations agree. -/
theorem prob_eq_transition_probs_get [DecidableEq S] (p : PDFA S A E O)
    (s e : S) (a : A) :
    p.prob s e a
      = (((p.env_dist s a).entries.filter
            (fun ew => decide (p.dfa.transition s (a, ew.1) = e))).map Prod.snd).sum
    ∧ p.prob s e a = lookupD (p.transition_probs s a) e := by
  constructor
  · unfold PDFA.prob PDFA.probs
    rw [List.filter_map]
    simp only [List.map_map]
    rfl
  · rw [transition_probs_lookupD]
    rfl

/-- C10: the mapping returned by `transition_probs(state, action)` is total
with default 0: reading it at any state that is not the destination of some
enumerated environment action yields 0, matching the `.get(end, 0)`
convention `prob` relies on. -/
theorem transition_probs_default_zero [DecidableEq S] (p : PDFA S A E O)
    (st : S) (a : A) (s : S)
    (h : ∀ q ∈ (p.env_dist st a).entries, p.dfa.transition st (a, q.1) ≠ s) :
    lookupD (p.transition_probs st a) s = 0 := by
  rw [transition_probs_lookupD]
  unfold weightAt
  have hnil : (p.probs st a).filter (fun q => decide (q.1 = s)) = [] := by
    rw [List.filter_eq_nil_iff]
    intro q hq
    simp only [PDFA.probs, List.mem_map] at hq
    obtain ⟨ew, hew, rfl⟩ := hq
    simpa using h ew hew
  rw [hnil]
  simp

/-- C2: `support(state, action)` is the set of destination states reached by
some environment action enumerated by `env_dist(state, action)` — including
actions carrying zero weight — and when every weight of that distribution is
strictly positive, `support(state, action)` is exactly the set of states
`end` with `prob(state, end, action) > 0`. -/
theorem support_spec [DecidableEq S] (p : PDFA S A E O) (st : S) (a : A) (e : S) :
    (e ∈ p.support st a
        ↔ ∃ q ∈ (p.env_dist st a).entries, p.dfa.transition st (a, q.1) = e)
    ∧ ((∀ q ∈ (p.env_dist st a).entries, 0 < q.2)
        → (e ∈ p.support st a ↔ 0 < p.prob st e a)) := by
  have hmem : e ∈ p.support st a
      ↔ ∃ q ∈ (p.env_dist st a).entries, p.dfa.transition st (a, q.1) = e := by
    unfold PDFA.support PDFA.transition_probs
    rw [mem_foldl_addWeight_keys]
    simp [PDFA.probs, List.mem_map, eq_comm]
  refine ⟨hmem, fun hpos => ?_⟩
  have hprob : p.prob st e a = weightAt (p.probs st a) e := by
    unfold PDFA.prob weightAt
    rfl
  constructor
  · intro he
    obtain ⟨q, hq, hqe⟩ := hmem.mp he
    rw [hprob]
    unfold weightAt
    apply List.sum_pos
    · intro x hx
      simp only [List.mem_map, List.mem_filter] at hx
      obtain ⟨r, ⟨hrmem, _⟩, rfl⟩ := hx
      simp only [PDFA.probs, List.mem_map] at hrmem
      obtain ⟨ew, hew, rfl⟩ := hrmem
      exact hpos ew hew
    · have hin : (p.dfa.transition st (a, q.1), q.2)
          ∈ (p.probs st a).filter (fun r => decide (r.1 = e)) := by
        rw [List.mem_filter]
        refine ⟨?_, by simpa using hqe⟩
        simp only [PDFA.probs, List.mem_map]
        exact ⟨q, hq, rfl⟩
      intro hemp
      rw [List.map_eq_nil_iff] at hemp
      rw [hemp] at hin
      exact absurd hin (List.not_mem_nil _)
  · intro hpr
    by_contra hns
    have hno : ∀ q ∈ (p.env_dist st a).entries, p.dfa.transition st (a, q.1) ≠ e :=
      fun q hq hqe => hns (hmem.mpr ⟨q, hq, hqe⟩)
    have hzero : p.prob st e a = 0 := by
      rw [hprob]
      unfold weightAt
      have hnil : (p.probs st a).filter (fun r => decide (r.1 = e)) = [] := by
        rw [List.filter_eq_nil_iff]
        intro r hr
        simp only [PDFA.probs, List.mem_map] at hr
        obtain ⟨ew, hew, rfl⟩ := hr
        simpa using hno ew hew
      rw [hnil]
      simp
    rw [hzero] at hpr
    exact lt_irrefl 0 hpr

lemma weightAt_map_const {T : Type} [DecidableEq S] (l : List T) (f : T → S) (w : ℚ)
    (e : S) :
    weightAt (l.map (fun i => (f i, w))) e
      = ((l.filter (fun i => decide (f i = e))).length : ℚ) * w := by
  induction l with
  | nil => simp [weightAt]
  | cons i rest ih =>
    rw [List.map_cons, weightAt_cons, ih, List.filter_cons]
    by_cases h : f i = e
    · rw [if_pos h, if_pos (by simpa using h), List.length_cons]
      push_cast
      ring
    · rw [if_neg h, if_neg (by simpa using h)]
      simp

lemma pickByWeight_mem (l : List (E × ℚ)) : ∀ r : ℚ, l ≠ [] →
    ∃ a, pickByWeight l r = some a ∧ a ∈ l.map Prod.fst := by
  induction l with
  | nil => intro r h; exact absurd rfl h
  | cons q rest ih =>
    intro r _
    obtain ⟨a, w⟩ := q
    cases rest with
    | nil => exact ⟨a, rfl, by simp⟩
    | cons q2 rest2 =>
      by_cases hr : r < w
      · exact ⟨a, by simp [pickByWeight, hr], by simp⟩
      · obtain ⟨b, hb, hbm⟩ := ih (r - w) (by simp)
        refine ⟨b, ?_, by simp only [List.map_cons, List.mem_cons]; right; simpa using hbm⟩
        simp only [pickByWeight, if_neg hr]
        exact hb

/-- C4: for a deterministic automaton `dyn`, every state and every action of
its alphabet, `lift(dyn).transition_probs(state, action)` is the singleton
mapping sending dyn's own transition result for `(state, action)` to the
full weight 1; the environment coordinate is ignored and no stochasticity
is added. -/
theorem lift_transition_probs [DecidableEq S] (dyn : DFA S A O) (s : S) (a : A)
    (h : a ∈ dyn.inputs) :
    (lift dyn).transition_probs s a = [(dyn.transition s a, 1)] := by
  show List.foldl _ [] ((lift dyn).probs s a) = _
  have hp : (lift dyn).probs s a = [(dyn.transition s a, 1 / ((1 : Nat) : ℚ))] := rfl
  rw [hp]
  norm_num [addWeight]

/-- C5: for a deterministic automaton `dyn` with a non-empty alphabet and
every state, `randomize(dyn).transition_probs(state, None)` assigns to each
destination state the sum of `1/len(dyn.inputs)` over the original inputs
that move the state to that destination: weight `1/len(dyn.inputs)` per
input, accumulating at destinations reached by more than one input. -/
theorem randomize_transition_probs [DecidableEq S] (dyn : DFA S A O) (s e : S)
    (h : dyn.inputs ≠ []) :
    lookupD ((randomize dyn).transition_probs s ()) e
      = ((dyn.inputs.filter (fun i => decide (dyn.transition s i = e))).length : ℚ)
          * (1 / (dyn.inputs.length : ℚ)) := by
  have hp : (randomize dyn).probs s ()
      = (dyn.inputs.map (fun a => (a, 1 / (dyn.inputs.length : ℚ)))).map
          (fun ew => (dyn.transition s ew.1, ew.2)) := rfl
  rw [transition_probs_lookupD, hp, List.map_map]
  exact weightAt_map_const dyn.inputs (fun i => dyn.transition s i)
    (1 / (dyn.inputs.length : ℚ)) e

/-- C6: sampling a distribution with no entries fails (there is nothing to
unpack), and sampling a non-empty distribution succeeds and returns one of
the stored environment actions. -/
theorem sample_empty_fail (d : Distribution E) (r : ℚ) :
    (d.entries = [] → d.sample r = none)
    ∧ (d.entries ≠ [] → ∃ a, d.sample r = some a ∧ a ∈ d.entries.map Prod.fst) := by
  constructor
  · intro h
    unfold Distribution.sample
    rw [h]
    rfl
  · intro h
    exact pickByWeight_mem d.entries r h

/-- C7: constructing a PDFA fails with a malformed-alphabet error when some
alphabet symbol of the wrapped automaton is not a 2-element pair, and the
validator passes when every alphabet symbol is a tuple of length 2. -/
theorem check_product_lang_spec (inputs : List PySym) :
    ((∃ i ∈ inputs, PySym.isPair2 i = false)
        → pdfa_validate inputs = Except.error "AssertionError")
    ∧ ((∀ i ∈ inputs, ∃ a b, i = PySym.tuple [a, b])
        → pdfa_validate inputs = Except.ok ()) := by
  constructor
  · rintro ⟨i, hi, hbad⟩
    have hfalse : check_product_lang inputs = false := by
      unfold check_product_lang
      rw [List.all_eq_false]
      exact ⟨i, hi, by simp [hbad]⟩
    unfold pdfa_validate
    rw [hfalse]
    rfl
  · intro h
    have htrue : check_product_lang inputs = true := by
      unfold check_product_lang
      rw [List.all_eq_true]
      intro i hi
      obtain ⟨a, b, rfl⟩ := h i hi
      rfl
    unfold pdfa_validate
    rw [htrue]
    rfl

/-- C8: two independent simulator runs from the same seed and the same start
override, driven with the same sequence of system actions, yield an
identical sequence of states. -/
theorem run_deterministic (p : PDFA S A E O) (c : S × Nat) (acts : List A)
    (ss1 ss2 : List S) (h1 : Run p c acts ss1) (h2 : Run p c acts ss2) :
    ss1 = ss2 := by
  induction h1 generalizing ss2 with
  | nil c => cases h2; rfl
  | step s g a e g2 acts ss hsample hrest ih =>
    cases h2 with
    | step _ _ _ e2 g22 _ ss2a hsample2 hrest2 =>
      rw [hsample] at hsample2
      injection hsample2 with hpair
      injection hpair with he hg
      subst he
      subst hg
      rw [ih ss2a hrest2]

/-- C9: `lift` and `randomize` derive a new automaton value — only the
alphabet and the transition function are replaced — so the wrapped
automaton of the derived PDFA keeps the original automaton's start state,
label function and outputs unchanged, and `dyn` itself is left untouched. -/
theorem lift_randomize_frame (dyn : DFA S A O) :
    (lift dyn).dfa.start = dyn.start ∧ (lift dyn).dfa.label = dyn.label
      ∧ (lift dyn).dfa.outputs = dyn.outputs
      ∧ (randomize dyn).dfa.start = dyn.start
      ∧ (randomize dyn).dfa.label = dyn.label
      ∧ (randomize dyn).dfa.outputs = dyn.outputs :=
  ⟨rfl, rfl, rfl, rfl, rfl, rfl⟩

/- ### Witnesses -/

/-- Witness for C2 at `exPDFA`, state 0, action 0, end state 0. -/
theorem support_spec_witness :
    (∀ q ∈ (exPDFA.env_dist 0 0).entries, 0 < q.2)
    ∧ ((0 : Nat) ∈ exPDFA.support 0 0 ↔ 0 < exPDFA.prob 0 0 0) :=
  ⟨by decide, (support_spec exPDFA 0 0 0).2 (by decide)⟩

/-- Witness for C10 at `exPDFA`: state 5 is not a destination, so the
mapping reads 0 there. -/
theorem transition_probs_default_zero_witness :
    (∀ q ∈ (exPDFA.env_dist 0 0).entries, exPDFA.dfa.transition 0 (0, q.1) ≠ 5)
    ∧ lookupD (exPDFA.transition_probs 0 0) 5 = 0 :=
  ⟨by decide, transition_probs_default_zero exPDFA 0 0 5 (by decide)⟩

/-- Witness for C4 at `exDyn`, state 0, action 1. -/
theorem lift_transition_probs_witness :
    (1 : Nat) ∈ exDyn.inputs
    ∧ (lift exDyn).transition_probs 0 1 = [(1, 1)] :=
  ⟨by decide, lift_transition_probs exDyn 0 1 (by decide)⟩

/-- Witness for C5 at `exDyn`, state 0, end state 1: one of the three
inputs reaches state 1, so it gets weight 1/3. -/
theorem randomize_transition_probs_witness :
    exDyn.inputs ≠ []
    ∧ lookupD ((randomize exDyn).transition_probs 0 ()) 1
        = ((exDyn.inputs.filter (fun i => decide (exDyn.transition 0 i = 1))).length : ℚ)
            * (1 / (exDyn.inputs.length : ℚ)) :=
  ⟨by decide, randomize_transition_probs exDyn 0 1 (by decide)⟩

/-- Witness for C6: the empty distribution fails, a singleton distribution
returns its stored action. -/
theorem sample_empty_fail_witness :
    (Distribution.mk ([] : List (Nat × ℚ))).sample 0 = none
    ∧ ∃ a, (Distribution.mk [((5 : Nat), (1 : ℚ))]).sample 0 = some a
        ∧ a ∈ ([((5 : Nat), (1 : ℚ))].map Prod.fst) :=
  ⟨(sample_empty_fail ⟨[]⟩ 0).1 rfl, (sample_empty_fail ⟨[(5, 1)]⟩ 0).2 (by decide)⟩

/-- Witness for C7: a non-tuple symbol is rejected, a 2-tuple alphabet
passes. -/
theorem check_product_lang_spec_witness :
    pdfa_validate [PySym.atom 3] = Except.error "AssertionError"
    ∧ pdfa_validate [PySym.tuple [1, 2]] = Except.ok () :=
  ⟨(check_product_lang_spec [PySym.atom 3]).1 ⟨PySym.atom 3, by decide, rfl⟩,
   (check_product_lang_spec [PySym.tuple [1, 2]]).2
     (fun i hi => by
        rw [List.mem_singleton] at hi
        exact hi ▸ ⟨1, 2, rfl⟩)⟩

/-- Witness for C8 at `exPDFA` with seed 5: one step draws environment
action 1 and lands in state 1, the same on both runs. -/
theorem run_deterministic_witness : ([1] : List Nat) = [1] := by
  have h : Run exPDFA (0, 5) [0] [1] :=
    Run.step 0 5 0 1 1222621274 [] [] (by decide) (Run.nil _)
  exact run_deterministic exPDFA (0, 5) [0] [1] [1] h h

end ProbAuto
